import Mathlib

/-!
# oncevery: `Once.Pull`, a time-bounded memoizer

A shallow embedding of `once.go` and a verification of its sequential contract.

* `time.Time` is an integer count of nanoseconds since the zero `Time`
  (January 1 of year 1, 00:00 UTC); `time.Duration` is an `int64` count of nanoseconds.
* `time.Now()` is an input: every call of `Pull` is handed the stream of readings that its
  successive calls of `time.Now()` return (`Clock`).
* The wrapped operation `fn` may have side effects (the tests increment a captured counter),
  so it is a function on an explicit world `W`.
* Wall-clock and monotonic readings are not told apart: there is one timeline, on which
  `Add` is exact and `After` is the strict order.
* `sync.RWMutex` is a record of its holders.  A single goroutine cannot be woken by another one,
  so an acquisition that would block is the result `none`, and the restart of `Pull` after a
  failed `TryLock` is a recursive call bounded by a fuel argument.
* Goroutines inside `Pull` at the same time are a step relation (`Pc.step`, `Config.run`):
  one step is one statement of `Pull`, or one access to a field of the `Once`, and a schedule
  picks the goroutine that moves.  A goroutine running alone does what `Once.Pull` does
  (`run_alone_is_Pull`).
-/

namespace Oncevery

/-! ## Time -/

/-- A `time.Time`: nanoseconds since the zero `Time`. -/
abbrev Time := Int

/-- The zero value of `time.Time`, the value of `lastCalled` in a fresh `Once`. -/
def Time.zero : Time := 0

/-- Smallest `int64`. -/
def minInt64 : Int := -9223372036854775808

/-- Largest `int64`. -/
def maxInt64 : Int := 9223372036854775807

/-- A `time.Duration`: an `int64` count of nanoseconds. -/
structure Duration where
  ns : Int
  lo : minInt64 ≤ ns
  hi : ns ≤ maxInt64

/-- The constant `time.Millisecond`, in nanoseconds. -/
def Millisecond : Int := 1000000

/-- The constant `time.Hour`, in nanoseconds. -/
def Hour : Int := 3600 * 1000000000

/-- The reading of a clock at the Unix epoch (January 1 of 1970, 00:00 UTC), which is
62135596800 seconds after the zero `Time`.  A system clock does not read earlier than this. -/
def unixEpoch : Time := 62135596800 * 1000000000

/-- Go: `t.Add(d)`. -/
def Time.Add (t : Time) (d : Duration) : Time := t + d.ns

/-- Go: `t.After(u)`, true when `t` is strictly later than `u`. -/
def Time.After (t u : Time) : Bool := decide (u < t)

/-- The readings that the successive calls of `time.Now()` made by one call of `Pull` return. -/
abbrev Clock := Nat → Time

/-- Go: `time.Now()`; takes the next reading. -/
def timeNow (clk : Clock) : Time × Clock := (clk 0, fun k => clk (k + 1))

/-! ## Options -/

/-- Go: `const never = 1 * 365 * 24 * time.Hour`. -/
def never : Duration := ⟨1 * 365 * 24 * Hour, by decide, by decide⟩

/-- Go: `type Options struct`. -/
structure Options where
  every : Duration
  retryOnError : Bool

/-- Go: `type Option func(*Options)`. -/
abbrev OptionFunc := Options → Options

/-- Go: `OptionSetEvery`. -/
def OptionSetEvery (duration : Duration) : OptionFunc :=
  fun options => { options with every := duration }

/-- Go: `OptionRetryOnError`. -/
def OptionRetryOnError (retry : Bool) : OptionFunc :=
  fun options => { options with retryOnError := retry }

/-! ## The lock -/

/-- The holders of a `sync.RWMutex`: whether a writer holds it, and how many readers do. -/
structure RWMutex where
  writer : Bool
  readers : Nat
deriving DecidableEq, Repr

/-- The zero value of `sync.RWMutex`: unlocked. -/
def RWMutex.free : RWMutex := ⟨false, 0⟩

/-- Go: `mu.RLock()`.  Blocks (`none`) while a writer holds the lock. -/
def RWMutex.RLock (m : RWMutex) : Option RWMutex :=
  if m.writer then none else some { m with readers := m.readers + 1 }

/-- Go: `mu.RUnlock()`. -/
def RWMutex.RUnlock (m : RWMutex) : RWMutex :=
  { m with readers := m.readers - 1 }

/-- Go: `mu.TryLock()`.  Succeeds only when nobody holds the lock. -/
def RWMutex.TryLock (m : RWMutex) : Bool × RWMutex :=
  if m.writer || m.readers != 0 then (false, m) else (true, { m with writer := true })

/-- Go: `mu.Unlock()`. -/
def RWMutex.Unlock (m : RWMutex) : RWMutex :=
  { m with writer := false }

/-! ## Checks -/

/-- Go: `type check func() bool`.  A check may read the clock. -/
abbrev check := Clock → Bool × Clock

/-- Go: `checkIsOldEnough`. -/
def checkIsOldEnough (lastCalled : Time) (every : Duration) : check :=
  fun clk =>
    let (now, clk) := timeNow clk
    (Time.After now (Time.Add lastCalled every), clk)

/-- Go: `checkShouldRetryOnError`.  The error is `nil` when it is `none`. -/
def checkShouldRetryOnError {E : Type} (lastErr : Option E) (retry : Bool) : check :=
  fun clk => (retry && lastErr.isSome, clk)

/-- Go: `all`.  Stops at the first check whose answer differs from `are`. -/
def all : List check → Bool → Clock → Bool × Clock
  | [], _, clk => (true, clk)
  | c :: checks, are, clk =>
    let (b, clk) := c clk
    if b != are then (false, clk) else all checks are clk

/-! ## Once -/

/-- Go: `type Once[T any] struct`.  `C` is `context.Context`, `E` the type of non-nil errors and
`W` the world the wrapped operation acts on. -/
structure Once (C W T E : Type) where
  options : Options
  fn : C → W → (T × Option E) × W
  mu : RWMutex
  lastCalled : Time
  result : T
  err : Option E

/-- What a call of `Pull` that returns leaves behind: the returned pair, the `Once` and the
world. -/
structure Returned (C W T E : Type) where
  value : T
  err : Option E
  once : Once C W T E
  world : W

variable {C W T E : Type}

/-- Go: `New`.  The fields that the composite literal leaves out take their zero values. -/
def New [Inhabited T] (fn : C → W → (T × Option E) × W) (ops : List OptionFunc) :
    Once C W T E :=
  let options : Options := { every := never, retryOnError := false }
  let options := ops.foldl (fun options op => op options) options
  { options := options, fn := fn, mu := RWMutex.free, lastCalled := Time.zero,
    result := default, err := none }

/-- The list `checks` that `Pull` builds from the state it reads under the read lock. -/
def Once.checks (o : Once C W T E) : List check :=
  [checkIsOldEnough o.lastCalled o.options.every,
   checkShouldRetryOnError o.err o.options.retryOnError]

/-- Go: `(*Once).Pull`.  `none` when the call does not return: the read lock would block, or
the fuel bounding the restarts ran out. -/
def Once.Pull : Nat → Once C W T E → C → Clock → W → Option (Returned C W T E)
  | 0, _, _, _, _ => none
  | fuel + 1, o, ctx, clk, w =>
    -- o.mu.RLock()
    match o.mu.RLock with
    | none => none
    | some mu =>
      let o := { o with mu := mu }
      let (ok, clk) := all o.checks false clk
      if ok then
        -- o.mu.RUnlock(); return o.result, o.err
        let o := { o with mu := o.mu.RUnlock }
        some ⟨o.result, o.err, o, w⟩
      else
        -- o.mu.RUnlock()
        let o := { o with mu := o.mu.RUnlock }
        -- if ok := o.mu.TryLock(); !ok { return o.Pull(ctx) }
        match o.mu.TryLock with
        | (false, _) => Once.Pull fuel o ctx clk w
        | (true, mu) =>
          let o := { o with mu := mu }
          -- o.result, o.err = o.fn(ctx)
          let (r, w) := o.fn ctx w
          let o := { o with result := r.1, err := r.2 }
          -- o.lastCalled = time.Now()
          let (now, _) := timeNow clk
          let o := { o with lastCalled := now }
          -- return o.result, o.err; then the deferred o.mu.Unlock()
          let value := o.result
          let err := o.err
          let o := { o with mu := o.mu.Unlock }
          some ⟨value, err, o, w⟩

/-- Sequential calls of `Pull` on one `Once`, as in the loop of `TestOnce_Pull_Every`: each call
has its context and its clock readings.  Returns the pairs the calls returned, in order. -/
def Once.pulls (fuel : Nat) :
    Once C W T E → List (C × Clock) → W → Option (List (T × Option E) × Once C W T E × W)
  | o, [], w => some ([], o, w)
  | o, call :: calls, w =>
    match o.Pull fuel call.1 call.2 w with
    | none => none
    | some r =>
      match Once.pulls fuel r.once calls r.world with
      | none => none
      | some (rs, o', w') => some ((r.value, r.err) :: rs, o', w')

/-! ## Observing the invocations of `fn` -/

/-- One invocation of the wrapped operation: the context it received and what it returned. -/
structure Invocation (C T E : Type) where
  ctx : C
  value : T
  err : Option E
deriving DecidableEq, Repr

/-- The operation `f`, with every invocation appended to a log kept next to its world; the Go
tests observe the invocations the same way, through a counter the operation increments. -/
def traced (f : C → W → (T × Option E) × W) :
    C → W × List (Invocation C T E) → (T × Option E) × (W × List (Invocation C T E)) :=
  fun ctx s =>
    let r := f ctx s.1
    (r.1, (r.2, s.2 ++ [⟨ctx, r.1.1, r.1.2⟩]))

/-- The operation of `TestOnce_Pull_Racing` and `TestOnce_Pull_Every`: `i++; return i, nil`. -/
def counterFn : Unit → Int → (Int × Option String) × Int :=
  fun _ i => ((i + 1, none), i + 1)

/-- The operation of `TestOnce_Pull_RetryOnError`: `i += 1; return i, errors.New(...)`. -/
def failingFn : Unit → Int → (Int × Option String) × Int :=
  fun _ i => ((i + 1, some "some error"), i + 1)

/-! ## Derived definitions used in the statements -/

/-- The state a recomputation leaves: the pair `fn` returned and the next clock reading. -/
def Once.stored (o : Once C W T E) (ctx : C) (clk : Clock) (w : W) : Once C W T E :=
  { o with result := (o.fn ctx w).1.1, err := (o.fn ctx w).1.2, lastCalled := clk 1 }

/-- The refresh interval of `TestOnce_Pull_Every`: `200*time.Millisecond`. -/
def every200ms : Duration := ⟨200 * Millisecond, by decide, by decide⟩

/-- The calls of the loop of `TestOnce_Pull_Every`: `n` calls, the first reading the clock at
`t0` and each next one `s` later; a call itself takes no time. -/
def spaced (t0 : Time) (s : Int) : Nat → List (Unit × Clock)
  | 0 => []
  | n + 1 => ((), fun _ => t0) :: spaced (t0 + s) s n

/-- The answers of the checks of a list, each called in turn (none skipped). -/
def answers : List check → Clock → List Bool
  | [], _ => []
  | c :: checks, clk => (c clk).1 :: answers checks (c clk).2

/-- The `Once` of `TestOnce_Pull_Racing`, its counter starting at 0 and its invocations logged. -/
def testRacing : Once Unit (Int × List (Invocation Unit Int String)) Int String :=
  New (traced counterFn) []

/-- The `Once` of `TestOnce_Pull_RetryOnError`, with its invocations logged. -/
def testRetryOnError : Once Unit (Int × List (Invocation Unit Int String)) Int String :=
  New (traced failingFn) [OptionRetryOnError true]

/-- The `Once` of `TestOnce_Pull_Every`, with its invocations logged. -/
def testEvery : Once Unit (Int × List (Invocation Unit Int String)) Int String :=
  New (traced counterFn) [OptionSetEvery every200ms]

/-- A `Once` with the default options around the operation that always fails. -/
def testFailing : Once Unit (Int × List (Invocation Unit Int String)) Int String :=
  New (traced failingFn) []

/-- The longest `time.Duration`, about 292 years. -/
def maxDuration : Duration := ⟨maxInt64, by decide, by decide⟩

/-- One option as a caller writes it: `OptionSetEvery(d)` or `OptionRetryOnError(b)`. -/
inductive Setting where
  | every (d : Duration)
  | retry (b : Bool)

/-- The Go option that a `Setting` denotes. -/
def Setting.toOption : Setting → OptionFunc
  | .every d => OptionSetEvery d
  | .retry b => OptionRetryOnError b

/-- The duration of the last `OptionSetEvery` of a list of options, when it has one. -/
def lastEvery : List Setting → Option Duration
  | [] => none
  | s :: ss =>
    match lastEvery ss with
    | some d => some d
    | none =>
      match s with
      | .every d => some d
      | .retry _ => none

/-- The flag of the last `OptionRetryOnError` of a list of options, when it has one. -/
def lastRetry : List Setting → Option Bool
  | [] => none
  | s :: ss =>
    match lastRetry ss with
    | some b => some b
    | none =>
      match s with
      | .every _ => none
      | .retry b => some b

/-- An operation that succeeds the first time it is invoked and fails every time after. -/
def flakyFn : Unit → Int → (Int × Option String) × Int :=
  fun _ i => ((i + 1, if i = 0 then none else some "some error"), i + 1)

/-- A `Once` with the refresh interval of `TestOnce_Pull_Every` around `flakyFn`. -/
def testFlaky : Once Unit (Int × List (Invocation Unit Int String)) Int String :=
  New (traced flakyFn) [OptionSetEvery every200ms]

/-- Sequential calls as in `Once.pulls`, observed for their invocations: for every call during
which the log of invocations grew, the clock reading at which the call checked the cache and
the timestamp the call left in `lastCalled`, in order; with the final `Once` and world. -/
def Once.stamps (fuel : Nat) :
    Once C (W × List (Invocation C T E)) T E → List (C × Clock) → W × List (Invocation C T E) →
      Option (List (Time × Time) × Once C (W × List (Invocation C T E)) T E ×
        (W × List (Invocation C T E)))
  | o, [], w => some ([], o, w)
  | o, call :: calls, w =>
    match o.Pull fuel call.1 call.2 w with
    | none => none
    | some r =>
      match Once.stamps fuel r.once calls r.world with
      | none => none
      | some (ts, o', w') =>
        if r.world.2.length = w.2.length then some (ts, o', w')
        else some ((call.2 0, r.once.lastCalled) :: ts, o', w')

/-! ## Goroutines

Several goroutines inside `Pull` at once: each step below is one statement of `Pull`, or one
access to a field of the `Once` where a statement makes several, executed by one goroutine on
the shared `Once` and world.  A schedule says which goroutine moves next and what the clock
reads then. -/

/-- The point a goroutine has reached in its call of `Pull`, with the values it holds. -/
inductive Pc (T E : Type) where
  /-- Before `o.mu.RLock()`. -/
  | rlock
  /-- Holding the read lock, before `all(checks, false)`. -/
  | check
  /-- The checks passed; before `o.mu.RUnlock()` of the fast path. -/
  | serveRUnlock
  /-- At `return o.result, o.err` of the fast path, before the read of `o.result`. -/
  | serveResult
  /-- At the same `return`, before the read of `o.err`. -/
  | serveErr (value : T)
  /-- A recomputation is due; before `o.mu.RUnlock()`. -/
  | slowRUnlock
  /-- Before `o.mu.TryLock()`. -/
  | tryLock
  /-- Holding the write lock, before the call `o.fn(ctx)`. -/
  | callFn
  /-- In `o.result, o.err = o.fn(ctx)`, before the store to `o.result`. -/
  | storeResult (r : T × Option E)
  /-- In the same assignment, before the store to `o.err`. -/
  | storeErr (err : Option E)
  /-- Before `o.lastCalled = time.Now()`. -/
  | stamp
  /-- At the last `return o.result, o.err`, before the read of `o.result`. -/
  | retResult
  /-- At the same `return`, before the read of `o.err`. -/
  | retErr (value : T)
  /-- Before the deferred `o.mu.Unlock()`. -/
  | unlock (value : T) (err : Option E)
  /-- The call has returned this pair. -/
  | returned (value : T) (err : Option E)
deriving DecidableEq, Repr

/-- One step of a goroutine whose call has the context `ctx`, when the clock reads `now`.
`none` when the goroutine cannot move: it waits for the read lock, or it has returned. -/
def Pc.step (ctx : C) (now : Time) :
    Pc T E → Once C W T E → W → Option (Pc T E × Once C W T E × W)
  | .rlock, o, w =>
    match o.mu.RLock with
    | none => none
    | some mu => some (.check, { o with mu := mu }, w)
  | .check, o, w =>
    if (all o.checks false (fun _ => now)).1 then some (.serveRUnlock, o, w)
    else some (.slowRUnlock, o, w)
  | .serveRUnlock, o, w => some (.serveResult, { o with mu := o.mu.RUnlock }, w)
  | .serveResult, o, w => some (.serveErr o.result, o, w)
  | .serveErr value, o, w => some (.returned value o.err, o, w)
  | .slowRUnlock, o, w => some (.tryLock, { o with mu := o.mu.RUnlock }, w)
  | .tryLock, o, w =>
    match o.mu.TryLock with
    | (false, _) => some (.rlock, o, w)
    | (true, mu) => some (.callFn, { o with mu := mu }, w)
  | .callFn, o, w => some (.storeResult (o.fn ctx w).1, o, (o.fn ctx w).2)
  | .storeResult r, o, w => some (.storeErr r.2, { o with result := r.1 }, w)
  | .storeErr err, o, w => some (.stamp, { o with err := err }, w)
  | .stamp, o, w => some (.retResult, { o with lastCalled := now }, w)
  | .retResult, o, w => some (.retErr o.result, o, w)
  | .retErr value, o, w => some (.unlock value o.err, o, w)
  | .unlock value err, o, w => some (.returned value err, { o with mu := o.mu.Unlock }, w)
  | .returned _ _, _, _ => none

/-- The shared `Once` and world, and for every goroutine the context of its call and the point
it has reached. -/
structure Config (C W T E : Type) where
  once : Once C W T E
  world : W
  goroutines : List (C × Pc T E)

/-- The goroutine `i` makes one step when the clock reads `now`. -/
def Config.step (cfg : Config C W T E) (i : Nat) (now : Time) : Option (Config C W T E) :=
  match cfg.goroutines[i]? with
  | none => none
  | some g =>
    match g.2.step g.1 now cfg.once cfg.world with
    | none => none
    | some (pc, o, w) => some ⟨o, w, cfg.goroutines.set i (g.1, pc)⟩

/-- The steps of a schedule, one after the other; `none` when a scheduled goroutine cannot
move. -/
def Config.run : Config C W T E → List (Nat × Time) → Option (Config C W T E)
  | cfg, [] => some cfg
  | cfg, (i, now) :: schedule =>
    match cfg.step i now with
    | none => none
    | some cfg => cfg.run schedule

/-- The goroutine `i` makes `n` steps in a row, the clock reading `now`. -/
def steps (i : Nat) (now : Time) (n : Nat) : List (Nat × Time) :=
  List.replicate n (i, now)

/-- `n` goroutines about to call `Pull` with the context `()`. -/
def callers (T E : Type) (n : Nat) : List (Unit × Pc T E) :=
  List.replicate n ((), Pc.rlock)

/-- Calls like those of `spaced` that take time: `n` calls whose checks read the clock `s`
apart, the first at `t0`, the next reading of each call coming `d` after its check. -/
def paced (t0 : Time) (s d : Int) : Nat → List (Unit × Clock)
  | 0 => []
  | n + 1 => ((), fun k => if k = 0 then t0 else t0 + d) :: paced (t0 + s) s d n

/-! ## Basic facts -/

theorem maxInt64_lt_unixEpoch : maxInt64 < unixEpoch := by decide

theorem all_checks_snd (o : Once C W T E) (clk : Clock) :
    (all o.checks false clk).2 = fun k => clk (k + 1) := by
  simp only [Once.checks, all, checkIsOldEnough, checkShouldRetryOnError, timeNow]
  split
  · rfl
  · split <;> rfl

/-- The cached pair is served exactly when the reading is not after `lastCalled + every` and
not (`retryOnError` and a cached error). -/
theorem all_checks_fst (o : Once C W T E) (clk : Clock) :
    (all o.checks false clk).1 = true ↔
      clk 0 ≤ o.lastCalled + o.options.every.ns ∧
        (o.options.retryOnError = false ∨ o.err = none) := by
  simp only [Once.checks, all, checkIsOldEnough, checkShouldRetryOnError, timeNow,
    Time.After, Time.Add]
  by_cases h1 : o.lastCalled + o.options.every.ns < clk 0
  · simp [h1]
  · have h2 : clk 0 ≤ o.lastCalled + o.options.every.ns := not_lt.mp h1
    cases hr : o.options.retryOnError <;> cases he : o.err <;> simp [h1, h2]

theorem all_checks_fst_false (o : Once C W T E) (clk : Clock) :
    (all o.checks false clk).1 = false ↔
      o.lastCalled + o.options.every.ns < clk 0 ∨
        (o.options.retryOnError = true ∧ o.err ≠ none) := by
  rw [← Bool.not_eq_true, all_checks_fst]
  cases o.options.retryOnError <;> cases o.err <;> simp

theorem Pull_serve (fuel : Nat) (o : Once C W T E) (ctx : C) (clk : Clock) (w : W)
    (hmu : o.mu = RWMutex.free) (hc : (all o.checks false clk).1 = true) :
    o.Pull (fuel + 1) ctx clk w = some ⟨o.result, o.err, o, w⟩ := by
  obtain ⟨op, fn, mu, lc, res, err⟩ := o
  simp only at hmu
  subst hmu
  have hc2 : (all (Once.checks (⟨op, fn, ⟨false, 1⟩, lc, res, err⟩ : Once C W T E)) false clk).1
      = true := hc
  simp [Once.Pull, RWMutex.RLock, RWMutex.free, RWMutex.RUnlock, hc2]

theorem Pull_recompute (fuel : Nat) (o : Once C W T E) (ctx : C) (clk : Clock) (w : W)
    (hmu : o.mu = RWMutex.free) (hc : (all o.checks false clk).1 = false) :
    o.Pull (fuel + 1) ctx clk w =
      some ⟨(o.fn ctx w).1.1, (o.fn ctx w).1.2, o.stored ctx clk w, (o.fn ctx w).2⟩ := by
  obtain ⟨op, fn, mu, lc, res, err⟩ := o
  simp only at hmu
  subst hmu
  have hc2 : (all (Once.checks (⟨op, fn, ⟨false, 1⟩, lc, res, err⟩ : Once C W T E)) false clk).1
      = false := hc
  have hs := all_checks_snd (⟨op, fn, ⟨false, 1⟩, lc, res, err⟩ : Once C W T E) clk
  simp [Once.Pull, RWMutex.RLock, RWMutex.free, RWMutex.RUnlock, RWMutex.TryLock,
    RWMutex.Unlock, hc2, hs, timeNow, Once.stored]

theorem stored_mu (o : Once C W T E) (ctx : C) (clk : Clock) (w : W) :
    (o.stored ctx clk w).mu = o.mu := rfl

theorem pulls_nil (fuel : Nat) (o : Once C W T E) (w : W) :
    o.pulls fuel [] w = some ([], o, w) := rfl

theorem pulls_cons_serve (fuel : Nat) (o : Once C W T E) (call : C × Clock)
    (calls : List (C × Clock)) (w : W)
    (hmu : o.mu = RWMutex.free) (hc : (all o.checks false call.2).1 = true) :
    o.pulls (fuel + 1) (call :: calls) w =
      (o.pulls (fuel + 1) calls w).map (fun x => ((o.result, o.err) :: x.1, x.2)) := by
  rw [Once.pulls, Pull_serve fuel o call.1 call.2 w hmu hc]
  simp only
  cases o.pulls (fuel + 1) calls w <;> rfl

theorem pulls_cons_recompute (fuel : Nat) (o : Once C W T E) (call : C × Clock)
    (calls : List (C × Clock)) (w : W)
    (hmu : o.mu = RWMutex.free) (hc : (all o.checks false call.2).1 = false) :
    o.pulls (fuel + 1) (call :: calls) w =
      ((o.stored call.1 call.2 w).pulls (fuel + 1) calls (o.fn call.1 w).2).map
        (fun x => ((o.fn call.1 w).1 :: x.1, x.2)) := by
  rw [Once.pulls, Pull_recompute fuel o call.1 call.2 w hmu hc]
  simp only
  cases (o.stored call.1 call.2 w).pulls (fuel + 1) calls (o.fn call.1 w).2 <;> rfl

/-- While every call reads the clock inside the window and no retry is due, the calls are
served from the cache: nothing changes and `fn` is not invoked. -/
theorem pulls_serve_all (fuel : Nat) (o : Once C W T E) (calls : List (C × Clock)) (w : W)
    (hmu : o.mu = RWMutex.free)
    (hretry : o.options.retryOnError = false ∨ o.err = none)
    (hwin : ∀ c ∈ calls, c.2 0 ≤ o.lastCalled + o.options.every.ns) :
    o.pulls (fuel + 1) calls w =
      some (List.replicate calls.length (o.result, o.err), o, w) := by
  induction calls with
  | nil => rfl
  | cons c cs ih =>
    have hc : (all o.checks false c.2).1 = true :=
      (all_checks_fst o c.2).mpr ⟨hwin c (List.mem_cons_self c cs), hretry⟩
    rw [pulls_cons_serve fuel o c cs w hmu hc,
      ih (fun c' hc' => hwin c' (List.mem_cons_of_mem c hc'))]
    rfl

theorem traced_counterFn (ctx : Unit) (i : Int) (log : List (Invocation Unit Int String)) :
    traced counterFn ctx (i, log) = ((i + 1, none), (i + 1, log ++ [⟨ctx, i + 1, none⟩])) := rfl

/-- With a spacing `s` such that `s ≤ D < 2 * s`, the calls alternate: one recomputes, the next
is served; `2 * n` calls invoke the counter `n` times. -/
theorem pulls_spaced_even (fuel : Nat) (D : Duration) (s : Int)
    (hs1 : D.ns < 2 * s) (hs2 : s ≤ D.ns) (n : Nat) :
    ∀ (o : Once Unit (Int × List (Invocation Unit Int String)) Int String) (t0 : Time) (i : Int)
      (log : List (Invocation Unit Int String)),
      o.fn = traced counterFn → o.mu = RWMutex.free → o.options.every = D →
      o.options.retryOnError = false → o.lastCalled + D.ns < t0 →
      (o.pulls (fuel + 1) (spaced t0 s (2 * n)) (i, log)).map
          (fun r => (r.2.2.1, r.2.2.2.length)) = some (i + n, log.length + n) := by
  induction n with
  | zero => intro o t0 i log _ _ _ _ _; simp [spaced, pulls_nil]
  | succ n ih =>
    intro o t0 i log hfn hmu hD hretry hstale
    have h2 : 2 * (n + 1) = (2 * n + 1) + 1 := by ring
    rw [h2, spaced, spaced]
    have hc1 : (all o.checks false (((), fun _ => t0) : Unit × Clock).2).1 = false := by
      rw [all_checks_fst_false]; left; rw [hD]; exact hstale
    rw [pulls_cons_recompute fuel o _ _ _ hmu hc1]
    have hc2 : (all (o.stored () (fun _ => t0) (i, log)).checks false
        (((), fun _ => t0 + s) : Unit × Clock).2).1 = true := by
      rw [all_checks_fst]
      refine ⟨?_, Or.inl hretry⟩
      show t0 + s ≤ t0 + o.options.every.ns
      rw [hD]; exact Int.add_le_add_left hs2 t0
    simp only
    rw [pulls_cons_serve fuel (o.stored () (fun _ => t0) (i, log)) _ _ _ hmu hc2]
    have hih := ih (o.stored () (fun _ => t0) (i, log)) (t0 + s + s) (i + 1)
      (log ++ [⟨(), i + 1, none⟩]) hfn hmu hD hretry
      (by show t0 + D.ns < t0 + s + s; rw [Int.add_assoc]; apply Int.add_lt_add_left; omega)
    simp only [hfn, traced_counterFn] at hih ⊢
    rw [Option.map_map, Option.map_map]
    refine Eq.trans hih ?_
    simp only [List.length_append, List.length_singleton, Nat.cast_add, Nat.cast_one]
    congr 2 <;> omega

/-- Calls that alternate whatever time they take: when every call checks the cache more than
`g` after both clock readings of the call before it and at most `D` after the second of them,
with `D ≤ 2 * g`, one call recomputes and the next is served; `2 * n` calls invoke the counter
`n` times. -/
theorem pulls_alternate (fuel : Nat) (D : Duration) (g : Int) (hg : D.ns ≤ 2 * g) (n : Nat) :
    ∀ (calls : List (Unit × Clock))
      (o : Once Unit (Int × List (Invocation Unit Int String)) Int String) (i : Int)
      (log : List (Invocation Unit Int String)),
      calls.length = 2 * n →
      List.Chain' (fun a b : Unit × Clock =>
        a.2 0 + g < b.2 0 ∧ a.2 1 + g < b.2 0 ∧ b.2 0 ≤ a.2 1 + D.ns) calls →
      o.fn = traced counterFn → o.mu = RWMutex.free → o.options.every = D →
      o.options.retryOnError = false →
      (∀ c, calls.head? = some c → o.lastCalled + D.ns < c.2 0) →
      (o.pulls (fuel + 1) calls (i, log)).map
          (fun r => (r.2.2.1, r.2.2.2.length)) = some (i + n, log.length + n) := by
  induction n with
  | zero =>
    intro calls o i log hlen _ _ _ _ _ _
    have : calls = [] := List.length_eq_zero.mp (by simpa using hlen)
    subst this
    simp [pulls_nil]
  | succ n ih =>
    intro calls o i log hlen hchain hfn hmu hD hretry hhead
    match calls, hlen, hchain, hhead with
    | [], hlen, _, _ => simp only [List.length_nil] at hlen; omega
    | [_], hlen, _, _ => simp only [List.length_singleton] at hlen; omega
    | a :: b :: rest, hlen, hchain, hhead =>
      obtain ⟨hab, hchain'⟩ := List.chain'_cons.mp hchain
      have hlen' : rest.length = 2 * n := by
        simp only [List.length_cons] at hlen; omega
      have hc1 : (all o.checks false a.2).1 = false := by
        rw [all_checks_fst_false]; left; rw [hD]; exact hhead a rfl
      rw [pulls_cons_recompute fuel o _ _ _ hmu hc1]
      have hc2 : (all (o.stored a.1 a.2 (i, log)).checks false b.2).1 = true := by
        rw [all_checks_fst]
        refine ⟨?_, Or.inl hretry⟩
        show b.2 0 ≤ a.2 1 + o.options.every.ns
        rw [hD]; exact hab.2.2
      rw [pulls_cons_serve fuel (o.stored a.1 a.2 (i, log)) _ _ _ hmu hc2]
      have hhead' : ∀ c, rest.head? = some c →
          (o.stored a.1 a.2 (i, log)).lastCalled + D.ns < c.2 0 := by
        intro c hc
        match rest, hc, hchain' with
        | c' :: rest', hc, hchain' =>
          simp only [List.head?_cons, Option.some.injEq] at hc
          subst hc
          have hbc := (List.chain'_cons.mp hchain').1
          have h1 : a.2 1 + g < b.2 0 := hab.2.1
          have h2 : b.2 0 + g < c'.2 0 := hbc.1
          show a.2 1 + D.ns < c'.2 0
          have h3 : a.2 1 + D.ns ≤ a.2 1 + (g + g) :=
            Int.add_le_add_left (by omega) _
          have h4 : a.2 1 + (g + g) < c'.2 0 := by
            have := Int.add_lt_add_right h1 g
            rw [Int.add_assoc] at this
            exact lt_trans this h2
          exact lt_of_le_of_lt h3 h4
      have hih := ih rest (o.stored a.1 a.2 (i, log)) (i + 1)
        (log ++ [⟨a.1, i + 1, none⟩]) hlen' hchain'.tail hfn hmu hD hretry hhead'
      simp only [hfn, traced_counterFn] at hih ⊢
      rw [Option.map_map, Option.map_map]
      refine Eq.trans hih ?_
      simp only [List.length_append, List.length_singleton, Nat.cast_add, Nat.cast_one]
      congr 2 <;> omega

/-! ## C2: the refresh interval -/

/-- C2, counterexample: a call that reads the clock exactly `D` after the recorded timestamp is
served from the cache.  In `TestOnce_Pull_Every` (`D` = 200ms) the first call records
`unixEpoch`; the call reading `unixEpoch + D` returns the cached 1 and the counter has been
invoked once, not twice.  With readings exactly 100ms apart the ten calls of the test invoke
the counter 4 times, not 5. -/
theorem C2_counterexample :
    (testEvery.pulls 1
        [((), fun _ => unixEpoch), ((), fun _ => unixEpoch + every200ms.ns)] (0, [])).map
      (fun r => (r.1, r.2.1.lastCalled, r.2.2.2.length)) =
      some ([(1, none), (1, none)], unixEpoch, 1) ∧
    (testEvery.pulls 1 (spaced unixEpoch (100 * Millisecond) 10) (0, [])).map
      (fun r => (r.2.2.1, r.2.2.2.length)) = some (4, 4) := by
  constructor <;> decide

/-- C2, amended: for a `Once` whose refresh interval is `D` and whose cached error is nil
(the operation succeeded), a call that reads the clock at most `D` after the recorded timestamp
(exactly `D` included) returns the cached pair and does not invoke `fn`; a call that reads it
strictly more than `D` after invokes `fn` once, returns and stores what it returned.  In
`TestOnce_Pull_Every` (`D` = 200ms), any ten sequential calls invoke the counter 5 times when
the first checks the cache more than 200ms after the zero `Time` and every later one checks it
more than 100ms after both clock readings of the call before it (the reading at its check and
the next one, which a recomputation stores in `lastCalled`) and at most 200ms after the second
of them. -/
theorem C2_recompute_strictly_after_every (D : Duration) (f : C → W → (T × Option E) × W)
    (o : Once C (W × List (Invocation C T E)) T E) (fuel : Nat) (ctx : C) (clk : Clock)
    (w : W × List (Invocation C T E))
    (hfn : o.fn = traced f) (hmu : o.mu = RWMutex.free) (hD : o.options.every = D)
    (herr : o.err = none) :
    (clk 0 ≤ o.lastCalled + D.ns →
      o.Pull (fuel + 1) ctx clk w = some ⟨o.result, none, o, w⟩) ∧
    (o.lastCalled + D.ns < clk 0 →
      o.Pull (fuel + 1) ctx clk w =
        some ⟨(f ctx w.1).1.1, (f ctx w.1).1.2,
          { o with result := (f ctx w.1).1.1, err := (f ctx w.1).1.2, lastCalled := clk 1 },
          ((f ctx w.1).2, w.2 ++ [⟨ctx, (f ctx w.1).1.1, (f ctx w.1).1.2⟩])⟩) ∧
    (∀ calls : List (Unit × Clock), calls.length = 10 →
      (∀ c, calls.head? = some c → every200ms.ns < c.2 0) →
      List.Chain' (fun a b : Unit × Clock =>
        a.2 0 + 100 * Millisecond < b.2 0 ∧ a.2 1 + 100 * Millisecond < b.2 0 ∧
          b.2 0 ≤ a.2 1 + 200 * Millisecond) calls →
      (testEvery.pulls (fuel + 1) calls (0, [])).map
        (fun r => (r.2.2.1, r.2.2.2.length)) = some (5, 5)) := by
  refine ⟨fun h => ?_, fun h => ?_, fun calls hlen hhead hchain => ?_⟩
  · have hc : (all o.checks false clk).1 = true :=
      (all_checks_fst o clk).mpr ⟨by rw [hD]; exact h, Or.inr herr⟩
    rw [Pull_serve fuel o ctx clk w hmu hc, herr]
  · have hc : (all o.checks false clk).1 = false :=
      (all_checks_fst_false o clk).mpr (Or.inl (by rw [hD]; exact h))
    rw [Pull_recompute fuel o ctx clk w hmu hc]
    simp only [Once.stored, hfn, traced]
  · exact pulls_alternate fuel every200ms (100 * Millisecond) (by decide) 5 calls testEvery 0 []
      hlen hchain rfl rfl rfl rfl hhead

/-- C2, witness: the state of `TestOnce_Pull_Every` after its first call, read at exactly
200ms, at 200ms and 1ns; and the whole test, with calls that take no time 101ms apart, and
with calls that take 3ms and check the cache 105ms apart. -/
theorem C2_recompute_strictly_after_every_witness :
    ((testEvery.stored () (fun _ => unixEpoch) (0, [])).fn = traced counterFn ∧
      (testEvery.stored () (fun _ => unixEpoch) (0, [])).mu = RWMutex.free ∧
      (testEvery.stored () (fun _ => unixEpoch) (0, [])).options.every = every200ms ∧
      (testEvery.stored () (fun _ => unixEpoch) (0, [])).err = none) ∧
    ((testEvery.stored () (fun _ => unixEpoch) (0, [])).Pull 1 ()
        (fun _ => unixEpoch + 200 * Millisecond) (1, [⟨(), 1, none⟩])).map
      (fun r => (r.value, r.err, r.world)) = some (1, none, (1, [⟨(), 1, none⟩])) ∧
    ((testEvery.stored () (fun _ => unixEpoch) (0, [])).Pull 1 ()
        (fun _ => unixEpoch + 200 * Millisecond + 1) (1, [⟨(), 1, none⟩])).map
      (fun r => (r.value, r.err, r.world)) =
      some (2, none, (2, [⟨(), 1, none⟩, ⟨(), 2, none⟩])) ∧
    (testEvery.pulls 1 (spaced unixEpoch (101 * Millisecond) 10) (0, [])).map
      (fun r => (r.2.2.1, r.2.2.2.length)) = some (5, 5) ∧
    (testEvery.pulls 1 (paced unixEpoch (105 * Millisecond) (3 * Millisecond) 10) (0, [])).map
      (fun r => (r.2.2.1, r.2.2.2.length)) = some (5, 5) := by
  have h := C2_recompute_strictly_after_every every200ms counterFn
    (testEvery.stored () (fun _ => unixEpoch) (0, [])) 0 ()
  refine ⟨⟨rfl, rfl, rfl, rfl⟩, ?_, ?_, ?_, ?_⟩
  · rw [(h (fun _ => unixEpoch + 200 * Millisecond) (1, [⟨(), 1, none⟩]) rfl rfl rfl rfl).1
      (by decide)]
    rfl
  · rw [(h (fun _ => unixEpoch + 200 * Millisecond + 1) (1, [⟨(), 1, none⟩])
      rfl rfl rfl rfl).2.1 (by decide)]
    rfl
  · exact (h (fun _ => unixEpoch) (0, []) rfl rfl rfl rfl).2.2
      (spaced unixEpoch (101 * Millisecond) 10) (by decide) (by decide)
      (by simp only [spaced, List.chain'_cons, List.chain'_singleton, and_true]; decide)
  · exact (h (fun _ => unixEpoch) (0, []) rfl rfl rfl rfl).2.2
      (paced unixEpoch (105 * Millisecond) (3 * Millisecond) 10) (by decide) (by decide)
      (by simp only [paced, List.chain'_cons, List.chain'_singleton, and_true]; decide)

/-! ## C3: retry on error -/

/-- With `retryOnError` set and an operation that always fails, every call of a sequence
recomputes, as soon as the first one does. -/
theorem pulls_retry_all [Inhabited T] (f : C → W → (T × Option E) × W)
    (hf : ∀ ctx w, (f ctx w).1.2 ≠ none) (fuel : Nat) (calls : List (C × Clock)) :
    ∀ (o : Once C (W × List (Invocation C T E)) T E) (w : W) (log : List (Invocation C T E)),
      o.fn = traced f → o.mu = RWMutex.free → o.options.retryOnError = true →
      (o.err ≠ none ∨ o.lastCalled + o.options.every.ns < unixEpoch) →
      (∀ c ∈ calls, unixEpoch ≤ c.2 0) →
      ∃ rets o' w' added, o.pulls (fuel + 1) calls (w, log) = some (rets, o', (w', log ++ added)) ∧
        added.length = calls.length ∧ added.map (fun i => i.ctx) = calls.map (fun c => c.1) ∧
        rets = added.map (fun i => (i.value, i.err)) := by
  induction calls with
  | nil =>
    intro o w log _ _ _ _ _
    exact ⟨[], o, w, [], by simp [pulls_nil], rfl, rfl, rfl⟩
  | cons c cs ih =>
    intro o w log hfn hmu hretry hdue hclk
    have hc : (all o.checks false c.2).1 = false := by
      rw [all_checks_fst_false]
      rcases hdue with h | h
      · exact Or.inr ⟨hretry, h⟩
      · exact Or.inl (lt_of_lt_of_le h (hclk c (List.mem_cons_self c cs)))
    have herr : (o.stored c.1 c.2 (w, log)).err ≠ none := by
      simp only [Once.stored, hfn, traced]
      exact hf c.1 w
    obtain ⟨rets, o', w', added, hrun, hlen, hctx, hrets⟩ :=
      ih (o.stored c.1 c.2 (w, log)) (f c.1 w).2
        (log ++ [⟨c.1, (f c.1 w).1.1, (f c.1 w).1.2⟩]) hfn hmu hretry (Or.inl herr)
        (fun c' hc' => hclk c' (List.mem_cons_of_mem c hc'))
    refine ⟨(f c.1 w).1 :: rets, o', w', ⟨c.1, (f c.1 w).1.1, (f c.1 w).1.2⟩ :: added,
      ?_, ?_, ?_, ?_⟩
    · rw [pulls_cons_recompute fuel o c cs (w, log) hmu hc]
      simp only [hfn, traced] at hrun ⊢
      rw [hrun]
      simp
    · simp [hlen]
    · simp [hctx]
    · simp [hrets]

/-- C3: with `retryOnError` set, a call that finds a cached error invokes `fn` (once, with its
own context), whatever the clock reads; and for an operation that always returns an error, the
N calls of any sequence invoke it exactly N times, each call returning the pair of its own
invocation.  Clock readings are at or after the Unix epoch. -/
theorem C3_retry_on_error_invokes_every_call [Inhabited T]
    (f : C → W → (T × Option E) × W) (fuel : Nat) :
    (∀ (o : Once C (W × List (Invocation C T E)) T E) (ctx : C) (clk : Clock)
        (w : W × List (Invocation C T E)),
      o.fn = traced f → o.mu = RWMutex.free → o.options.retryOnError = true → o.err ≠ none →
      o.Pull (fuel + 1) ctx clk w =
        some ⟨(f ctx w.1).1.1, (f ctx w.1).1.2,
          { o with result := (f ctx w.1).1.1, err := (f ctx w.1).1.2, lastCalled := clk 1 },
          ((f ctx w.1).2, w.2 ++ [⟨ctx, (f ctx w.1).1.1, (f ctx w.1).1.2⟩])⟩) ∧
    ((∀ ctx w, (f ctx w).1.2 ≠ none) →
      ∀ (ops : List OptionFunc) (calls : List (C × Clock)) (w : W),
        (New (traced f) ops : Once C (W × List (Invocation C T E)) T E).options.retryOnError
          = true →
        (∀ c ∈ calls, unixEpoch ≤ c.2 0) →
        ∃ rets o' w' log,
          (New (traced f) ops).pulls (fuel + 1) calls (w, []) = some (rets, o', (w', log)) ∧
          log.length = calls.length ∧ log.map (fun i => i.ctx) = calls.map (fun c => c.1) ∧
          rets = log.map (fun i => (i.value, i.err))) := by
  refine ⟨fun o ctx clk w hfn hmu hretry herr => ?_, fun hf ops calls w hretry hclk => ?_⟩
  · have hc : (all o.checks false clk).1 = false :=
      (all_checks_fst_false o clk).mpr (Or.inr ⟨hretry, herr⟩)
    rw [Pull_recompute fuel o ctx clk w hmu hc]
    simp only [Once.stored, hfn, traced]
  · have hdue : (New (traced f) ops : Once C (W × List (Invocation C T E)) T E).lastCalled +
        (New (traced f) ops : Once C (W × List (Invocation C T E)) T E).options.every.ns
          < unixEpoch := by
      have h1 := (New (traced f) ops : Once C (W × List (Invocation C T E)) T E).options.every.hi
      have h2 := maxInt64_lt_unixEpoch
      show (0 : Int) + _ < _
      omega
    obtain ⟨rets, o', w', added, hrun, hlen, hctx, hrets⟩ :=
      pulls_retry_all f hf fuel calls (New (traced f) ops) w [] rfl rfl hretry (Or.inr hdue) hclk
    exact ⟨rets, o', w', added, by simpa using hrun, hlen, hctx, hrets⟩

/-- C3, witness: `TestOnce_Pull_RetryOnError`.  After a first failure recorded at the Unix
epoch, a call at that very instant invokes the operation again; ten calls with no time between
them invoke it ten times. -/
theorem C3_retry_on_error_invokes_every_call_witness :
    ((testRetryOnError.stored () (fun _ => unixEpoch) (0, [])).options.retryOnError = true ∧
      (testRetryOnError.stored () (fun _ => unixEpoch) (0, [])).err ≠ none ∧
      (∀ ctx w, (failingFn ctx w).1.2 ≠ none)) ∧
    ((testRetryOnError.stored () (fun _ => unixEpoch) (0, [])).Pull 1 () (fun _ => unixEpoch)
        (1, [⟨(), 1, some "some error"⟩])).map (fun r => (r.value, r.err, r.world.2.length)) =
      some (2, some "some error", 2) ∧
    (testRetryOnError.pulls 1 (spaced unixEpoch 0 10) (0, [])).map
      (fun r => (r.1.length, r.2.2.2.length)) = some (10, 10) := by
  have h := C3_retry_on_error_invokes_every_call failingFn 0
  refine ⟨⟨rfl, by decide, fun _ _ => by simp [failingFn]⟩, ?_, ?_⟩
  · rw [h.1 (testRetryOnError.stored () (fun _ => unixEpoch) (0, [])) () (fun _ => unixEpoch)
      (1, [⟨(), 1, some "some error"⟩]) rfl rfl rfl (by decide)]
    rfl
  · obtain ⟨rets, o', w', log, hrun, hlen, _, hrets⟩ :=
      h.2 (fun _ _ => by simp [failingFn]) [OptionRetryOnError true] (spaced unixEpoch 0 10) 0
        rfl (by decide)
    have hrun2 : testRetryOnError.pulls 1 (spaced unixEpoch 0 10) (0, []) =
        some (rets, o', (w', log)) := hrun
    rw [hrun2]
    simp [hrets, hlen, spaced]

/-! ## C4: a cached error is served -/

/-- A call that returns is one of the two: served, with the world untouched, or a
recomputation, with one invocation appended to the log. -/
theorem Pull_cases (f : C → W → (T × Option E) × W)
    (o : Once C (W × List (Invocation C T E)) T E) (fuel : Nat) (ctx : C) (clk : Clock)
    (w : W × List (Invocation C T E)) (hfn : o.fn = traced f) (hmu : o.mu = RWMutex.free) :
    ((all o.checks false clk).1 = true ∧
      o.Pull (fuel + 1) ctx clk w = some ⟨o.result, o.err, o, w⟩) ∨
    ((all o.checks false clk).1 = false ∧
      o.Pull (fuel + 1) ctx clk w =
        some ⟨(f ctx w.1).1.1, (f ctx w.1).1.2, o.stored ctx clk w,
          ((f ctx w.1).2, w.2 ++ [⟨ctx, (f ctx w.1).1.1, (f ctx w.1).1.2⟩])⟩) := by
  cases hc : (all o.checks false clk).1
  · right
    refine ⟨rfl, ?_⟩
    rw [Pull_recompute fuel o ctx clk w hmu hc]
    simp only [hfn, traced]
  · left
    exact ⟨rfl, Pull_serve fuel o ctx clk w hmu hc⟩

/-- A call whose log grew by the entry `x` was a recomputation and `x` is its invocation. -/
theorem Pull_invoked (f : C → W → (T × Option E) × W)
    (o : Once C (W × List (Invocation C T E)) T E) (fuel : Nat) (ctx : C) (clk : Clock)
    (w : W × List (Invocation C T E)) (r : Returned C (W × List (Invocation C T E)) T E)
    (x : Invocation C T E) (hfn : o.fn = traced f) (hmu : o.mu = RWMutex.free)
    (hpull : o.Pull (fuel + 1) ctx clk w = some r) (hinv : r.world.2 = w.2 ++ [x]) :
    x = ⟨ctx, (f ctx w.1).1.1, (f ctx w.1).1.2⟩ ∧
      r = ⟨(f ctx w.1).1.1, (f ctx w.1).1.2, o.stored ctx clk w,
        ((f ctx w.1).2, w.2 ++ [⟨ctx, (f ctx w.1).1.1, (f ctx w.1).1.2⟩])⟩ := by
  rcases Pull_cases f o fuel ctx clk w hfn hmu with ⟨_, h⟩ | ⟨_, h⟩
  · rw [h] at hpull
    have hr := Option.some.inj hpull
    subst hr
    simp at hinv
  · rw [h] at hpull
    have hr := Option.some.inj hpull
    subst hr
    simp only [List.append_cancel_left_eq, List.cons.injEq, and_true] at hinv
    exact ⟨hinv.symm, rfl⟩

/-- C4: with `retryOnError` false, after a call of `Pull` in which `fn` was invoked and
returned the value `v` with the error `e`, recorded at `t`, every later call that reads the
clock not after `t + every` returns `(v, e)` and leaves the `Once` and the world, log of
invocations included, as they were: `fn` is not invoked. -/
theorem C4_cached_error_is_served (f : C → W → (T × Option E) × W)
    (o : Once C (W × List (Invocation C T E)) T E) (fuel : Nat) (ctx : C) (clk : Clock)
    (w : W × List (Invocation C T E)) (r : Returned C (W × List (Invocation C T E)) T E)
    (v : T) (e : E) (calls : List (C × Clock))
    (hfn : o.fn = traced f) (hmu : o.mu = RWMutex.free)
    (hretry : o.options.retryOnError = false)
    (hpull : o.Pull (fuel + 1) ctx clk w = some r)
    (hinv : r.world.2 = w.2 ++ [⟨ctx, v, some e⟩])
    (hwin : ∀ c ∈ calls, c.2 0 ≤ r.once.lastCalled + r.once.options.every.ns) :
    r.once.lastCalled = clk 1 ∧ (r.value, r.err) = (v, some e) ∧
      r.once.pulls (fuel + 1) calls r.world =
        some (List.replicate calls.length (v, some e), r.once, r.world) := by
  obtain ⟨hx, hr⟩ := Pull_invoked f o fuel ctx clk w r _ hfn hmu hpull hinv
  simp only [Invocation.mk.injEq, true_and] at hx
  subst hr
  simp only at hwin ⊢
  refine ⟨rfl, by rw [hx.1, hx.2], ?_⟩
  rw [pulls_serve_all fuel (o.stored ctx clk w) calls _ hmu (Or.inl hretry) hwin]
  simp only [Once.stored, hfn, traced]
  rw [hx.1, hx.2]

/-- C4, witness: the failing operation behind the default options.  The first call, at the
Unix epoch, caches the error; three calls made up to `never` later get the same pair. -/
theorem C4_cached_error_is_served_witness :
    (testFailing.options.retryOnError = false ∧
      (testFailing.Pull 1 () (fun _ => unixEpoch) (0, [])).map
        (fun r => (r.value, r.err, r.world)) =
        some (1, some "some error", (1, [⟨(), 1, some "some error"⟩]))) ∧
    ((testFailing.stored () (fun _ => unixEpoch) (0, [])).pulls 1
        (spaced unixEpoch (182 * 24 * Hour + 12 * Hour) 3)
        (1, [⟨(), 1, some "some error"⟩])).map (fun x => (x.1, x.2.2)) =
      some ([(1, some "some error"), (1, some "some error"), (1, some "some error")],
        (1, [⟨(), 1, some "some error"⟩])) := by
  refine ⟨⟨rfl, rfl⟩, ?_⟩
  rw [(C4_cached_error_is_served failingFn testFailing 0 () (fun _ => unixEpoch) (0, [])
    ⟨1, some "some error", testFailing.stored () (fun _ => unixEpoch) (0, []),
      (1, [⟨(), 1, some "some error"⟩])⟩ 1 "some error"
    (spaced unixEpoch (182 * 24 * Hour + 12 * Hour) 3) rfl rfl rfl rfl rfl (by decide)).2.2]
  rfl

/-! ## C5: the first call -/

/-- C5: whatever the options, the first call of `Pull` on a fresh `Once` invokes `fn` once,
with the context of the call, and returns and stores what it returned.  The clock reads a
time at or after the Unix epoch, which is later than the zero `Time` plus any `Duration`. -/
theorem C5_first_pull_invokes [Inhabited T] (f : C → W → (T × Option E) × W)
    (ops : List OptionFunc) (fuel : Nat) (ctx : C) (clk : Clock)
    (w : W × List (Invocation C T E)) (hclk : unixEpoch ≤ clk 0) :
    (New (traced f) ops).Pull (fuel + 1) ctx clk w =
      some ⟨(f ctx w.1).1.1, (f ctx w.1).1.2,
        { (New (traced f) ops : Once C (W × List (Invocation C T E)) T E) with
          result := (f ctx w.1).1.1, err := (f ctx w.1).1.2, lastCalled := clk 1 },
        ((f ctx w.1).2, w.2 ++ [⟨ctx, (f ctx w.1).1.1, (f ctx w.1).1.2⟩])⟩ := by
  have hc : (all (New (traced f) ops : Once C (W × List (Invocation C T E)) T E).checks
      false clk).1 = false := by
    rw [all_checks_fst_false]
    left
    have h1 := (New (traced f) ops : Once C (W × List (Invocation C T E)) T E).options.every.hi
    have h3 := lt_of_lt_of_le (lt_of_le_of_lt h1 maxInt64_lt_unixEpoch) hclk
    show (0 : Int) + _ < _
    rw [Int.zero_add]
    exact h3
  rw [Pull_recompute fuel _ ctx clk w rfl hc]
  rfl

/-- C5, witness: the counter behind the longest refresh interval; the first call, at the Unix
epoch, returns 1. -/
theorem C5_first_pull_invokes_witness :
    unixEpoch ≤ (fun _ => unixEpoch : Clock) 0 ∧
    ((New (traced counterFn) [OptionSetEvery maxDuration, OptionRetryOnError false] :
        Once Unit (Int × List (Invocation Unit Int String)) Int String).Pull 1 ()
        (fun _ => unixEpoch) (0, [])).map (fun r => (r.value, r.err, r.world)) =
      some (1, none, (1, [⟨(), 1, none⟩])) := by
  refine ⟨by decide, ?_⟩
  rw [C5_first_pull_invokes counterFn [OptionSetEvery maxDuration, OptionRetryOnError false] 0
    () (fun _ => unixEpoch) (0, []) (by decide)]
  rfl

/-! ## C6: the default refresh interval -/

/-- With `retryOnError` false and all the readings inside one window as long as the refresh
interval, a sequence of calls invokes `fn` at most once. -/
theorem pulls_window_at_most_once (f : C → W → (T × Option E) × W) (fuel : Nat) (t0 : Time)
    (calls : List (C × Clock)) :
    ∀ (o : Once C (W × List (Invocation C T E)) T E) (w : W) (log : List (Invocation C T E)),
      o.fn = traced f → o.mu = RWMutex.free → o.options.retryOnError = false →
      (∀ c ∈ calls, ∀ k, t0 ≤ c.2 k ∧ c.2 k ≤ t0 + o.options.every.ns) →
      ∃ rets o' w' added, o.pulls (fuel + 1) calls (w, log) = some (rets, o', (w', log ++ added)) ∧
        added.length ≤ 1 := by
  induction calls with
  | nil =>
    intro o w log _ _ _ _
    exact ⟨[], o, w, [], by simp [pulls_nil], by simp⟩
  | cons c cs ih =>
    intro o w log hfn hmu hretry hwin
    have hwin' : ∀ c' ∈ cs, ∀ k, t0 ≤ c'.2 k ∧ c'.2 k ≤ t0 + o.options.every.ns :=
      fun c' hc' => hwin c' (List.mem_cons_of_mem c hc')
    cases hc : (all o.checks false c.2).1
    · have hserve : ∀ c' ∈ cs, c'.2 0 ≤
          (o.stored c.1 c.2 (w, log)).lastCalled + (o.stored c.1 c.2 (w, log)).options.every.ns := by
        intro c' hc'
        have h1 := (hwin' c' hc' 0).2
        have h2 := (hwin c (List.mem_cons_self c cs) 1).1
        show c'.2 0 ≤ c.2 1 + o.options.every.ns
        exact le_trans h1 (Int.add_le_add_right h2 _)
      refine ⟨(f c.1 w).1 :: List.replicate cs.length
          ((o.stored c.1 c.2 (w, log)).result, (o.stored c.1 c.2 (w, log)).err),
        o.stored c.1 c.2 (w, log), (f c.1 w).2, [⟨c.1, (f c.1 w).1.1, (f c.1 w).1.2⟩], ?_,
        by simp⟩
      rw [pulls_cons_recompute fuel o c cs (w, log) hmu hc,
        pulls_serve_all fuel (o.stored c.1 c.2 (w, log)) cs _ hmu (Or.inl hretry) hserve]
      simp only [hfn, traced, Option.map_some']
    · obtain ⟨rets, o', w', added, hrun, hlen⟩ := ih o w log hfn hmu hretry hwin'
      refine ⟨(o.result, o.err) :: rets, o', w', added, ?_, hlen⟩
      rw [pulls_cons_serve fuel o c cs (w, log) hmu hc, hrun]
      simp only [Option.map_some']

/-- C6, counterexample: with the default options the refresh interval is `never`, one year of
365 days.  The second call of the counter of `TestOnce_Pull_Racing`, 1ns more than a year
after the first, invokes the successful operation again: two executions, returning 1 and 2. -/
theorem C6_counterexample :
    (testRacing.pulls 1
        [((), fun _ => unixEpoch), ((), fun _ => unixEpoch + never.ns + 1)] (0, [])).map
      (fun r => (r.1, r.2.2.2.length)) = some ([(1, none), (2, none)], 2) := by
  decide

/-- C6, amended: for a `Once` built with no options, a cached result is not stale while the
clock reads at most `never` (365 days) more than the recorded timestamp: for every sequence
of calls whose clock readings all lie within one span of 365 days, `fn` is executed at most
once. -/
theorem C6_default_interval_is_one_year [Inhabited T] (f : C → W → (T × Option E) × W)
    (fuel : Nat) (calls : List (C × Clock)) (w : W) (t0 : Time)
    (hwin : ∀ c ∈ calls, ∀ k, t0 ≤ c.2 k ∧ c.2 k ≤ t0 + 365 * 24 * Hour) :
    ∃ rets o' w' log,
      (New (traced f) [] : Once C (W × List (Invocation C T E)) T E).pulls (fuel + 1) calls
        (w, []) = some (rets, o', (w', log)) ∧ log.length ≤ 1 := by
  obtain ⟨rets, o', w', added, hrun, hlen⟩ :=
    pulls_window_at_most_once f fuel t0 calls
      (New (traced f) [] : Once C (W × List (Invocation C T E)) T E) w [] rfl rfl rfl
      (fun c hc k => by
        have h := hwin c hc k
        have hn : never.ns = 365 * 24 * Hour := by decide
        show t0 ≤ c.2 k ∧ c.2 k ≤ t0 + never.ns
        rw [hn]; exact h)
  exact ⟨rets, o', w', added, by simpa using hrun, hlen⟩

/-- C6, witness: three calls of the counter of `TestOnce_Pull_Racing`, at the Unix epoch, half
a year later and exactly 365 days later, invoke it once. -/
theorem C6_default_interval_is_one_year_witness :
    (∀ c ∈ spaced unixEpoch (182 * 24 * Hour + 12 * Hour) 3,
      unixEpoch ≤ c.2 0 ∧ c.2 0 ≤ unixEpoch + 365 * 24 * Hour) ∧
    (testRacing.pulls 1 (spaced unixEpoch (182 * 24 * Hour + 12 * Hour) 3) (0, [])).map
      (fun r => (r.1, r.2.2.2.length)) = some ([(1, none), (1, none), (1, none)], 1) ∧
    ∃ rets o' w' log,
      testRacing.pulls 1 (spaced unixEpoch (182 * 24 * Hour + 12 * Hour) 3) (0, []) =
        some (rets, o', (w', log)) ∧ log.length ≤ 1 :=
  ⟨by decide, by decide,
    C6_default_interval_is_one_year counterFn 0
      (spaced unixEpoch (182 * 24 * Hour + 12 * Hour) 3) 0 unixEpoch
      (by
        intro c hc k
        simp only [spaced, List.mem_cons, List.mem_nil_iff, or_false] at hc
        rcases hc with h | h | h <;> subst h <;> dsimp only <;> decide)⟩

/-! ## C7: calls inside the window -/

/-- C7: with `retryOnError` false, when the first call on a fresh `Once` invoked `fn` and got
the value `v` with no error, recorded at `t`, any number of further calls that read the clock
not after `t + every` return `(v, nil)` and invoke nothing: after all of them the log holds
that one invocation. -/
theorem C7_served_within_window [Inhabited T] (f : C → W → (T × Option E) × W)
    (ops : List OptionFunc) (fuel : Nat) (ctx : C) (clk : Clock) (w : W)
    (r : Returned C (W × List (Invocation C T E)) T E) (v : T) (calls : List (C × Clock))
    (hretry : (New (traced f) ops : Once C (W × List (Invocation C T E)) T E).options.retryOnError
      = false)
    (hpull : (New (traced f) ops).Pull (fuel + 1) ctx clk (w, []) = some r)
    (hinv : r.world.2 = [⟨ctx, v, none⟩])
    (hwin : ∀ c ∈ calls, c.2 0 ≤ r.once.lastCalled + r.once.options.every.ns) :
    r.once.lastCalled = clk 1 ∧ (r.value, r.err) = (v, none) ∧
      (New (traced f) ops).pulls (fuel + 1) ((ctx, clk) :: calls) (w, []) =
        some ((v, none) :: List.replicate calls.length (v, none), r.once,
          (r.world.1, [⟨ctx, v, none⟩])) := by
  obtain ⟨hx, hr⟩ := Pull_invoked f (New (traced f) ops) fuel ctx clk (w, []) r _ rfl rfl hpull
    (by rw [hinv]; rfl)
  simp only [Invocation.mk.injEq, true_and] at hx
  have hrun : (New (traced f) ops : Once C (W × List (Invocation C T E)) T E).pulls (fuel + 1)
      ((ctx, clk) :: calls) (w, []) =
      (r.once.pulls (fuel + 1) calls r.world).map (fun x => ((r.value, r.err) :: x.1, x.2)) := by
    rw [Once.pulls, hpull]
    simp only
    cases r.once.pulls (fuel + 1) calls r.world <;> rfl
  have hmu : r.once.mu = RWMutex.free := by rw [hr]; rfl
  have hre : r.once.options.retryOnError = false := by rw [hr]; exact hretry
  have hres : (r.once.result, r.once.err) = (v, none) := by
    rw [hr]; simp only [Once.stored]; rw [hx.1, hx.2]; rfl
  have hval : (r.value, r.err) = (v, none) := by rw [hr]; simp only; rw [hx.1, hx.2]
  rw [hrun, pulls_serve_all fuel r.once calls r.world hmu (Or.inl hre) hwin, hres, hval]
  refine ⟨by rw [hr]; rfl, rfl, ?_⟩
  simp only [Option.map_some', ← hinv]

/-- C7, witness: `TestOnce_Pull_Racing` run sequentially: the first of ten calls made at the
same instant invokes the counter, and the other nine get its 1. -/
theorem C7_served_within_window_witness :
    (testRacing.options.retryOnError = false ∧
      (testRacing.Pull 1 () (fun _ => unixEpoch) (0, [])).map
        (fun r => (r.value, r.err, r.world, r.once.lastCalled)) =
        some (1, none, (1, [⟨(), 1, none⟩]), unixEpoch)) ∧
    (testRacing.pulls 1 (spaced unixEpoch 0 10) (0, [])).map (fun x => (x.1, x.2.2)) =
      some (List.replicate 10 (1, none), (1, [⟨(), 1, none⟩])) := by
  refine ⟨⟨rfl, rfl⟩, ?_⟩
  have h := (C7_served_within_window counterFn [] 0 () (fun _ => unixEpoch) 0
    ⟨1, none, testRacing.stored () (fun _ => unixEpoch) (0, []), (1, [⟨(), 1, none⟩])⟩ 1
    (spaced unixEpoch 0 9) rfl rfl rfl (by decide)).2.2
  have h2 : testRacing.pulls 1 (spaced unixEpoch 0 10) (0, []) =
      some ((1, none) :: List.replicate 9 (1, none),
        testRacing.stored () (fun _ => unixEpoch) (0, []), (1, [⟨(), 1, none⟩])) := h
  rw [h2]
  rfl

/-! ## C8: the recomputation path -/

/-- C8: a call that finds a recomputation due and whose `TryLock` succeeds invokes `fn` once,
with its own context, returns the pair `fn` returned as it is, and leaves a `Once` that
differs from the one it found in `result` and `err`, which hold that pair, and in
`lastCalled`, which holds the reading of the clock taken after `fn` returned. -/
theorem C8_recomputation_stores_the_pair (f : C → W → (T × Option E) × W)
    (o : Once C (W × List (Invocation C T E)) T E) (fuel : Nat) (ctx : C) (clk : Clock)
    (w : W × List (Invocation C T E)) (m1 m2 : RWMutex)
    (hfn : o.fn = traced f) (hr : o.mu.RLock = some m1)
    (hc : (all o.checks false clk).1 = false)
    (ht : m1.RUnlock.TryLock = (true, m2)) :
    o.Pull (fuel + 1) ctx clk w =
      some ⟨(f ctx w.1).1.1, (f ctx w.1).1.2,
        { o with result := (f ctx w.1).1.1, err := (f ctx w.1).1.2, lastCalled := clk 1 },
        ((f ctx w.1).2, w.2 ++ [⟨ctx, (f ctx w.1).1.1, (f ctx w.1).1.2⟩])⟩ := by
  have hmu : o.mu = RWMutex.free := by
    obtain ⟨op, fn, ⟨wr, rd⟩, lc, res, err⟩ := o
    cases wr
    · simp only [RWMutex.RLock, Bool.false_eq_true, if_false, Option.some.injEq] at hr
      subst hr
      cases rd
      · rfl
      · simp [RWMutex.RUnlock, RWMutex.TryLock] at ht
    · simp [RWMutex.RLock] at hr
  rw [Pull_recompute fuel o ctx clk w hmu hc]
  simp only [Once.stored, hfn, traced]

/-- C8, witness: the first call of `TestOnce_Pull_Every`, with readings 1ns apart. -/
theorem C8_recomputation_stores_the_pair_witness :
    (testEvery.mu.RLock = some ⟨false, 1⟩ ∧
      (all testEvery.checks false (fun k => unixEpoch + k)).1 = false ∧
      (RWMutex.RUnlock ⟨false, 1⟩).TryLock = (true, ⟨true, 0⟩)) ∧
    (testEvery.Pull 1 () (fun k => unixEpoch + k) (0, [])).map
      (fun r => (r.value, r.err, r.world, r.once.lastCalled, r.once.result, r.once.err,
        r.once.mu, r.once.options.every.ns, r.once.options.retryOnError)) =
      some (1, none, (1, [⟨(), 1, none⟩]), unixEpoch + 1, 1, none, RWMutex.free,
        200 * Millisecond, false) := by
  refine ⟨⟨rfl, rfl, rfl⟩, ?_⟩
  rw [C8_recomputation_stores_the_pair counterFn testEvery 0 () (fun k => unixEpoch + k)
    (0, []) ⟨false, 1⟩ ⟨true, 0⟩ rfl rfl rfl rfl]
  rfl

/-! ## C9: the cached pair comes from one invocation -/

/-- Sequential calls return, and keep the cached pair the pair of the last invocation; every
pair returned is the pair cached at the start or the pair of an invocation made since. -/
theorem pulls_coherent [Inhabited T] (f : C → W → (T × Option E) × W) (fuel : Nat)
    (calls : List (C × Clock)) :
    ∀ (o : Once C (W × List (Invocation C T E)) T E) (w : W) (log : List (Invocation C T E)),
      o.fn = traced f → o.mu = RWMutex.free →
      ((log = [] ∧ (o.result, o.err) = (default, none)) ∨
        ∃ i, log.getLast? = some i ∧ (o.result, o.err) = (i.value, i.err)) →
      ∃ rets o' w' added, o.pulls (fuel + 1) calls (w, log) = some (rets, o', (w', log ++ added)) ∧
        (((log ++ added) = [] ∧ (o'.result, o'.err) = (default, none)) ∨
          ∃ i, (log ++ added).getLast? = some i ∧ (o'.result, o'.err) = (i.value, i.err)) ∧
        rets.getLast?.getD (o.result, o.err) = (o'.result, o'.err) ∧
        (∀ p ∈ rets, p = (o.result, o.err) ∨ ∃ i ∈ added, p = (i.value, i.err)) ∧
        (∀ i ∈ added, ∃ w0, (i.value, i.err) = (f i.ctx w0).1) := by
  induction calls with
  | nil =>
    intro o w log _ _ hcoh
    exact ⟨[], o, w, [], by simp [pulls_nil], by simpa using hcoh, rfl, by simp, by simp⟩
  | cons c cs ih =>
    intro o w log hfn hmu hcoh
    cases hc : (all o.checks false c.2).1
    · have hcoh1 : ((log ++ [(⟨c.1, (f c.1 w).1.1, (f c.1 w).1.2⟩ : Invocation C T E)]) = [] ∧
            ((o.stored c.1 c.2 (w, log)).result, (o.stored c.1 c.2 (w, log)).err)
              = (default, none)) ∨
          ∃ i, (log ++ [(⟨c.1, (f c.1 w).1.1, (f c.1 w).1.2⟩ : Invocation C T E)]).getLast?
              = some i ∧
            ((o.stored c.1 c.2 (w, log)).result, (o.stored c.1 c.2 (w, log)).err)
              = (i.value, i.err) := by
        right
        exact ⟨_, List.getLast?_concat log, by simp only [Once.stored, hfn, traced]⟩
      obtain ⟨rets, o', w', added, hrun, hcoh', hlast, hrets, hlog⟩ :=
        ih (o.stored c.1 c.2 (w, log)) (f c.1 w).2 _ hfn hmu hcoh1
      refine ⟨(f c.1 w).1 :: rets, o', w', ⟨c.1, (f c.1 w).1.1, (f c.1 w).1.2⟩ :: added,
        ?_, ?_, ?_, ?_, ?_⟩
      · rw [pulls_cons_recompute fuel o c cs (w, log) hmu hc]
        simp only [hfn, traced] at hrun ⊢
        rw [hrun]
        simp
      · simpa using hcoh'
      · rw [List.getLast?_cons, Option.getD_some, ← hlast]
        simp only [Once.stored, hfn, traced]
      · intro p hp
        rcases List.mem_cons.mp hp with h | h
        · exact Or.inr ⟨_, List.mem_cons_self _ _, by rw [h]⟩
        · rcases hrets p h with h2 | ⟨i, hi, h2⟩
          · refine Or.inr ⟨_, List.mem_cons_self _ _, ?_⟩
            rw [h2]
            simp only [Once.stored, hfn, traced]
          · exact Or.inr ⟨i, List.mem_cons_of_mem _ hi, h2⟩
      · intro i hi
        rcases List.mem_cons.mp hi with h | h
        · exact ⟨w, by rw [h]⟩
        · exact hlog i h
    · obtain ⟨rets, o', w', added, hrun, hcoh', hlast, hrets, hlog⟩ := ih o w log hfn hmu hcoh
      refine ⟨(o.result, o.err) :: rets, o', w', added, ?_, hcoh', ?_, ?_, hlog⟩
      · rw [pulls_cons_serve fuel o c cs (w, log) hmu hc, hrun]
        simp only [Option.map_some']
      · rw [List.getLast?_cons, Option.getD_some, ← hlast]
      · intro p hp
        rcases List.mem_cons.mp hp with h | h
        · exact Or.inl h
        · exact hrets p h

/-- C9: any sequence of sequential calls on a fresh `Once` returns, and in the state it
reaches the cached pair is the initial pair (zero value, nil) with nothing invoked so far, or
the pair that the last invocation of `fn` returned; the last call returned the cached pair, and
every pair returned is the initial pair or the pair of one logged invocation, each of which is
what `fn` returned for its context. -/
theorem C9_cached_pair_of_one_invocation [Inhabited T] (f : C → W → (T × Option E) × W)
    (ops : List OptionFunc) (fuel : Nat) (calls : List (C × Clock)) (w : W) :
    ∃ rets o' w' log,
      (New (traced f) ops).pulls (fuel + 1) calls (w, []) = some (rets, o', (w', log)) ∧
      ((log = [] ∧ (o'.result, o'.err) = (default, none)) ∨
        ∃ i, log.getLast? = some i ∧ (o'.result, o'.err) = (i.value, i.err)) ∧
      (∀ p, rets.getLast? = some p → p = (o'.result, o'.err)) ∧
      (∀ p ∈ rets, p = (default, none) ∨ ∃ i ∈ log, p = (i.value, i.err)) ∧
      (∀ i ∈ log, ∃ w0, (i.value, i.err) = (f i.ctx w0).1) := by
  obtain ⟨rets, o', w', added, hrun, hcoh, hlast, hrets, hlog⟩ :=
    pulls_coherent f fuel calls (New (traced f) ops) w [] rfl rfl (Or.inl ⟨rfl, rfl⟩)
  simp only [List.nil_append] at hrun hcoh
  refine ⟨rets, o', w', added, hrun, hcoh, ?_, hrets, hlog⟩
  intro p hp
  rw [hp] at hlast
  exact hlast

/-! ## C10: when the cache is served -/

/-- The checks of a list all answer `are` exactly when `all` says so. -/
theorem all_iff_answers (checks : List check) (are : Bool) :
    ∀ clk : Clock, (all checks are clk).1 = true ↔ ∀ b ∈ answers checks clk, b = are := by
  induction checks with
  | nil => intro clk; simp [all, answers]
  | cons c cs ih =>
    intro clk
    simp only [all, answers, List.mem_cons, forall_eq_or_imp]
    by_cases h : (c clk).1 = are
    · simp [h, ih]
    · simp [h]

/-- C10: the check of `Pull` passes, so that the cached pair is served, exactly when the
reading is not after `lastCalled + every` and not (`retryOnError` and a non-nil cached error).
A call returns; it returns the cached pair with nothing invoked exactly in that case, and it
invokes `fn` exactly when one of the two holds.  In general `all checks false` is true exactly
when every check of the list answers false. -/
theorem C10_served_iff_fresh_and_no_retry (f : C → W → (T × Option E) × W)
    (o : Once C (W × List (Invocation C T E)) T E) (fuel : Nat) (ctx : C) (clk : Clock)
    (w : W × List (Invocation C T E)) (hfn : o.fn = traced f) (hmu : o.mu = RWMutex.free) :
    ((all o.checks false clk).1 = true ↔
      ¬ Time.After (clk 0) (Time.Add o.lastCalled o.options.every) = true ∧
        ¬ (o.options.retryOnError = true ∧ o.err ≠ none)) ∧
    (∃ r, o.Pull (fuel + 1) ctx clk w = some r ∧
      ((r.world = w ∧ (r.value, r.err) = (o.result, o.err)) ↔
        ¬ Time.After (clk 0) (Time.Add o.lastCalled o.options.every) = true ∧
          ¬ (o.options.retryOnError = true ∧ o.err ≠ none)) ∧
      (r.world.2 = w.2 ++ [⟨ctx, r.value, r.err⟩] ↔
        Time.After (clk 0) (Time.Add o.lastCalled o.options.every) = true ∨
          (o.options.retryOnError = true ∧ o.err ≠ none))) ∧
    (∀ (checks : List check) (clk' : Clock),
      (all checks false clk').1 = true ↔ ∀ b ∈ answers checks clk', b = false) := by
  have hcond : (all o.checks false clk).1 = true ↔
      ¬ Time.After (clk 0) (Time.Add o.lastCalled o.options.every) = true ∧
        ¬ (o.options.retryOnError = true ∧ o.err ≠ none) := by
    rw [all_checks_fst]
    simp only [Time.After, Time.Add, decide_eq_true_eq, not_lt, not_and, not_not]
    cases o.options.retryOnError <;> simp
  refine ⟨hcond, ?_, fun checks clk' => all_iff_answers checks false clk'⟩
  rcases Pull_cases f o fuel ctx clk w hfn hmu with ⟨hc, h⟩ | ⟨hc, h⟩
  · refine ⟨_, h, ?_, ?_⟩
    · simp only [true_and]
      exact ⟨fun _ => hcond.mp hc, fun _ => trivial⟩
    · have := hcond.mp hc
      simp only [List.self_eq_append_right, List.cons_ne_self, false_iff, not_or]
      exact this
  · have hn : ¬ (¬ Time.After (clk 0) (Time.Add o.lastCalled o.options.every) = true ∧
        ¬ (o.options.retryOnError = true ∧ o.err ≠ none)) := by
      rw [← hcond, hc]; simp
    refine ⟨_, h, ?_, ?_⟩
    · simp only
      constructor
      · intro hw
        have h2 := congrArg Prod.snd hw.1
        simp at h2
      · intro hw
        exact absurd hw hn
    · simp only [true_iff]
      by_contra hcon
      exact hn (not_or.mp hcon)

/-- C10, witness: the state of `TestOnce_Pull_Every` after its first call is served at the
200th millisecond and recomputes 1ns later. -/
theorem C10_served_iff_fresh_and_no_retry_witness :
    ((testEvery.stored () (fun _ => unixEpoch) (0, [])).fn = traced counterFn ∧
      (testEvery.stored () (fun _ => unixEpoch) (0, [])).mu = RWMutex.free) ∧
    (all (testEvery.stored () (fun _ => unixEpoch) (0, [])).checks false
      (fun _ => unixEpoch + 200 * Millisecond)).1 = true ∧
    (all (testEvery.stored () (fun _ => unixEpoch) (0, [])).checks false
      (fun _ => unixEpoch + 200 * Millisecond + 1)).1 = false := by
  have h := C10_served_iff_fresh_and_no_retry counterFn
    (testEvery.stored () (fun _ => unixEpoch) (0, [])) 0 ()
  refine ⟨⟨rfl, rfl⟩, ?_, ?_⟩
  · exact (h (fun _ => unixEpoch + 200 * Millisecond) (1, [⟨(), 1, none⟩]) rfl rfl).1.mpr
      (by decide)
  · have h2 := (h (fun _ => unixEpoch + 200 * Millisecond + 1) (1, [⟨(), 1, none⟩])
      rfl rfl).1
    rw [← Bool.not_eq_true, h2]
    decide

/-! ## C11: the options -/

theorem New_options [Inhabited T] (fn : C → W → (T × Option E) × W) (ops : List OptionFunc) :
    (New fn ops).options =
      ops.foldl (fun options op => op options) { every := never, retryOnError := false } := rfl

theorem foldl_settings_every (ss : List Setting) :
    ∀ init : Options,
      ((ss.map Setting.toOption).foldl (fun options op => op options) init).every =
        (lastEvery ss).getD init.every := by
  induction ss with
  | nil => intro init; rfl
  | cons s ss ih =>
    intro init
    simp only [List.map_cons, List.foldl_cons, ih, lastEvery]
    cases lastEvery ss with
    | some d => rfl
    | none => cases s <;> rfl

theorem foldl_settings_retry (ss : List Setting) :
    ∀ init : Options,
      ((ss.map Setting.toOption).foldl (fun options op => op options) init).retryOnError =
        (lastRetry ss).getD init.retryOnError := by
  induction ss with
  | nil => intro init; rfl
  | cons s ss ih =>
    intro init
    simp only [List.map_cons, List.foldl_cons, ih, lastRetry]
    cases lastRetry ss with
    | some b => rfl
    | none => cases s <;> rfl

/-- C11: for every list of options, `New` gives the configuration whose `every` is the
duration of the last `OptionSetEvery` of the list, or `never` when there is none, and whose
`retryOnError` is the flag of the last `OptionRetryOnError`, or false when there is none.
Hence an option applied twice in a row gives what it gives applied once, and an
`OptionSetEvery` and an `OptionRetryOnError` next to each other give the same configuration in
either order, whatever options come before and after. -/
theorem C11_last_option_of_each_field_wins [Inhabited T] (fn : C → W → (T × Option E) × W)
    (ss : List Setting) :
    (New fn (ss.map Setting.toOption)).options.every = (lastEvery ss).getD never ∧
    (New fn (ss.map Setting.toOption)).options.retryOnError = (lastRetry ss).getD false ∧
    (∀ (ops rest : List OptionFunc) (s : Setting),
      (New fn (ops ++ [s.toOption, s.toOption] ++ rest)).options =
        (New fn (ops ++ [s.toOption] ++ rest)).options) ∧
    (∀ (ops rest : List OptionFunc) (d : Duration) (b : Bool),
      (New fn (ops ++ [OptionSetEvery d, OptionRetryOnError b] ++ rest)).options =
        (New fn (ops ++ [OptionRetryOnError b, OptionSetEvery d] ++ rest)).options) := by
  refine ⟨?_, ?_, ?_, ?_⟩
  · rw [New_options, foldl_settings_every]
  · rw [New_options, foldl_settings_retry]
  · intro ops rest s
    simp only [New_options, List.foldl_append, List.foldl_cons, List.foldl_nil]
    cases s <;> rfl
  · intro ops rest d b
    simp only [New_options, List.foldl_append, List.foldl_cons, List.foldl_nil]
    rfl

/-! ## C13: a served call changes nothing -/

/-- C13: when the checks of a call all answer false (no recomputation is due), the call
returns the cached pair and leaves the `Once`, with every field, and the world as they were, so
`fn` is not invoked.  Every call returns, and it invokes `fn` not at all or exactly once; when
it does not, nothing has changed, so a call that changes the state is one that invoked `fn`,
once. -/
theorem C13_served_call_changes_nothing (f : C → W → (T × Option E) × W)
    (o : Once C (W × List (Invocation C T E)) T E) (fuel : Nat) (ctx : C) (clk : Clock)
    (w : W × List (Invocation C T E)) (hfn : o.fn = traced f) (hmu : o.mu = RWMutex.free) :
    ((all o.checks false clk).1 = true →
      o.Pull (fuel + 1) ctx clk w = some ⟨o.result, o.err, o, w⟩) ∧
    (∃ r, o.Pull (fuel + 1) ctx clk w = some r ∧
      (r.world.2 = w.2 ∨ r.world.2 = w.2 ++ [⟨ctx, r.value, r.err⟩]) ∧
      (r.world.2 = w.2 → r.once = o ∧ r.world = w ∧ (r.value, r.err) = (o.result, o.err)) ∧
      ((r.once.lastCalled ≠ o.lastCalled ∨ r.once.result ≠ o.result ∨ r.once.err ≠ o.err ∨
          r.world ≠ w) →
        r.world = ((f ctx w.1).2, w.2 ++ [⟨ctx, (f ctx w.1).1.1, (f ctx w.1).1.2⟩])) ∧
      r.once.options = o.options) := by
  refine ⟨fun hc => Pull_serve fuel o ctx clk w hmu hc, ?_⟩
  rcases Pull_cases f o fuel ctx clk w hfn hmu with ⟨_, h⟩ | ⟨_, h⟩
  · refine ⟨_, h, Or.inl rfl, fun _ => ⟨rfl, rfl, rfl⟩, ?_, rfl⟩
    intro hch
    simp at hch
  · refine ⟨_, h, Or.inr rfl, ?_, fun _ => rfl, rfl⟩
    intro hw
    simp at hw

/-- C13, witness: the state of `TestOnce_Pull_Every` after its first call, called again
100ms later, returns the cached 1 and is left as it was. -/
theorem C13_served_call_changes_nothing_witness :
    ((testEvery.stored () (fun _ => unixEpoch) (0, [])).fn = traced counterFn ∧
      (testEvery.stored () (fun _ => unixEpoch) (0, [])).mu = RWMutex.free ∧
      (all (testEvery.stored () (fun _ => unixEpoch) (0, [])).checks false
        (fun _ => unixEpoch + 100 * Millisecond)).1 = true) ∧
    (testEvery.stored () (fun _ => unixEpoch) (0, [])).Pull 1 ()
        (fun _ => unixEpoch + 100 * Millisecond) (1, [⟨(), 1, none⟩]) =
      some ⟨1, none, testEvery.stored () (fun _ => unixEpoch) (0, []), (1, [⟨(), 1, none⟩])⟩ :=
  ⟨⟨rfl, rfl, rfl⟩,
    (C13_served_call_changes_nothing counterFn
      (testEvery.stored () (fun _ => unixEpoch) (0, [])) 0 ()
      (fun _ => unixEpoch + 100 * Millisecond) (1, [⟨(), 1, none⟩]) rfl rfl).1 rfl⟩

/-! ## C14: what staleness is measured from -/

/-- C14, counterexample: staleness is measured from the last invocation, failed or not.  With
a refresh interval of 200ms, `flakyFn` succeeds at the Unix epoch and fails 300ms later; the
call made 450ms after the epoch, which is more than 200ms after the last successful invocation,
is served the cached error: `lastCalled` holds the time of the failed invocation and `fn` has
been invoked twice, not three times. -/
theorem C14_counterexample :
    (testFlaky.pulls 1
        [((), fun _ => unixEpoch), ((), fun _ => unixEpoch + 300 * Millisecond),
          ((), fun _ => unixEpoch + 450 * Millisecond)] (0, [])).map
      (fun r => (r.1, r.2.1.lastCalled, r.2.2.2.length)) =
      some ([(1, none), (2, some "some error"), (2, some "some error")],
        unixEpoch + 300 * Millisecond, 2) := by
  decide

/-- C14, amended: a call that recomputes leaves in `lastCalled` the clock reading it takes
after `fn` returned, whatever `fn` returned, error or not; and from then on
`checkIsOldEnough` answers true exactly when the clock reads strictly more than the refresh
interval after that reading.  Staleness is measured from the last invocation. -/
theorem C14_staleness_from_last_invocation (f : C → W → (T × Option E) × W)
    (o : Once C (W × List (Invocation C T E)) T E) (fuel : Nat) (ctx : C) (clk : Clock)
    (w : W × List (Invocation C T E)) (hfn : o.fn = traced f) (hmu : o.mu = RWMutex.free)
    (hc : (all o.checks false clk).1 = false) :
    ∃ r, o.Pull (fuel + 1) ctx clk w = some r ∧
      (r.value, r.err) = (f ctx w.1).1 ∧
      r.world.2 = w.2 ++ [⟨ctx, r.value, r.err⟩] ∧
      r.once.lastCalled = clk 1 ∧ r.once.options = o.options ∧
      ∀ clk' : Clock,
        (checkIsOldEnough r.once.lastCalled r.once.options.every clk').1 = true ↔
          clk 1 + o.options.every.ns < clk' 0 := by
  rcases Pull_cases f o fuel ctx clk w hfn hmu with ⟨hc', _⟩ | ⟨_, h⟩
  · rw [hc] at hc'
    exact absurd hc' (by decide)
  · refine ⟨_, h, rfl, rfl, rfl, rfl, fun clk' => ?_⟩
    simp [checkIsOldEnough, timeNow, Time.After, Time.Add, Once.stored]

/-- C14, witness: the failed second invocation of `flakyFn`, 300ms after the epoch, is the one
staleness is measured from. -/
theorem C14_staleness_from_last_invocation_witness :
    ((testFlaky.stored () (fun _ => unixEpoch) (0, [])).fn = traced flakyFn ∧
      (testFlaky.stored () (fun _ => unixEpoch) (0, [])).mu = RWMutex.free ∧
      (all (testFlaky.stored () (fun _ => unixEpoch) (0, [])).checks false
        (fun _ => unixEpoch + 300 * Millisecond)).1 = false) ∧
    ∃ r, (testFlaky.stored () (fun _ => unixEpoch) (0, [])).Pull 1 ()
        (fun _ => unixEpoch + 300 * Millisecond) (1, [⟨(), 1, none⟩]) = some r ∧
      (r.value, r.err) = (2, some "some error") ∧
      r.once.lastCalled = unixEpoch + 300 * Millisecond := by
  refine ⟨⟨rfl, rfl, rfl⟩, ?_⟩
  obtain ⟨r, hr, hv, _, hl, _, _⟩ := C14_staleness_from_last_invocation flakyFn
    (testFlaky.stored () (fun _ => unixEpoch) (0, [])) 0 ()
    (fun _ => unixEpoch + 300 * Millisecond) (1, [⟨(), 1, none⟩]) rfl rfl (by rfl)
  exact ⟨r, hr, hv, hl⟩

/-! ## C15: successive invocations are more than `every` apart -/

/-- With `retryOnError` false, every invocation of a sequence of calls is decided at a clock
reading strictly after the previous recorded timestamp plus the refresh interval `D`. -/
theorem stamps_chain (f : C → W → (T × Option E) × W) (fuel : Nat) (D : Int)
    (calls : List (C × Clock)) :
    ∀ (o : Once C (W × List (Invocation C T E)) T E) (w : W × List (Invocation C T E))
      (t0 : Time),
      o.fn = traced f → o.mu = RWMutex.free → o.options.retryOnError = false →
      o.options.every.ns = D → (∀ c ∈ calls, c.2 0 ≤ c.2 1) →
      ∃ ts o' w', o.stamps (fuel + 1) calls w = some (ts, o', w') ∧
        List.Chain (fun a b : Time × Time => a.2 + D < b.1 ∧ b.1 ≤ b.2) (t0, o.lastCalled) ts ∧
        w'.2.length = w.2.length + ts.length := by
  induction calls with
  | nil =>
    intro o w t0 _ _ _ _ _
    exact ⟨[], o, w, rfl, List.Chain.nil, rfl⟩
  | cons c cs ih =>
    intro o w t0 hfn hmu hretry hD hclk
    have hclk' : ∀ c' ∈ cs, c'.2 0 ≤ c'.2 1 :=
      fun c' hc' => hclk c' (List.mem_cons_of_mem c hc')
    rcases Pull_cases f o fuel c.1 c.2 w hfn hmu with ⟨_, h⟩ | ⟨hc, h⟩
    · obtain ⟨ts, o', w', hrun, hchain, hlen⟩ := ih o w t0 hfn hmu hretry hD hclk'
      refine ⟨ts, o', w', ?_, hchain, hlen⟩
      rw [Once.stamps, h]
      simp only [hrun, if_true]
    · obtain ⟨ts, o', w', hrun, hchain, hlen⟩ :=
        ih (o.stored c.1 c.2 w)
          ((f c.1 w.1).2, w.2 ++ [⟨c.1, (f c.1 w.1).1.1, (f c.1 w.1).1.2⟩]) (c.2 0)
          hfn hmu hretry hD hclk'
      have hstale : o.lastCalled + D < c.2 0 := by
        rcases (all_checks_fst_false o c.2).mp hc with h1 | h1
        · rw [← hD]; exact h1
        · rw [hretry] at h1
          exact absurd h1.1 (by decide)
      refine ⟨(c.2 0, c.2 1) :: ts, o', w', ?_, ?_, ?_⟩
      · rw [Once.stamps, h]
        simp only [hrun, List.length_append, List.length_singleton, Nat.add_right_eq_self,
          one_ne_zero, if_false]
        rfl
      · exact List.Chain.cons ⟨hstale, hclk c (List.mem_cons_self c cs)⟩ hchain
      · rw [hlen]
        simp only [List.length_append, List.length_cons, List.length_nil]
        omega

/-- C15: with `retryOnError` false, in any sequence of sequential calls whose second clock
reading is not before the first, every call that invokes `fn` decided to do so at a reading
strictly after the previous recorded timestamp plus `every`, and records a reading not before
that one: each recorded timestamp is more than `every` after the previous one, and strictly
after it when `every` is not negative.  The list has one entry for each invocation. -/
theorem C15_invocations_more_than_every_apart (f : C → W → (T × Option E) × W)
    (o : Once C (W × List (Invocation C T E)) T E) (fuel : Nat) (calls : List (C × Clock))
    (w : W × List (Invocation C T E)) (hfn : o.fn = traced f) (hmu : o.mu = RWMutex.free)
    (hretry : o.options.retryOnError = false) (hclk : ∀ c ∈ calls, c.2 0 ≤ c.2 1) :
    ∃ ts o' w', o.stamps (fuel + 1) calls w = some (ts, o', w') ∧
      w'.2.length = w.2.length + ts.length ∧
      List.Chain
        (fun a b : Time × Time =>
          a.2 + o.options.every.ns < b.1 ∧ a.2 + o.options.every.ns < b.2 ∧
            (0 ≤ o.options.every.ns → a.2 < b.2))
        (o.lastCalled, o.lastCalled) ts := by
  obtain ⟨ts, o', w', hrun, hchain, hlen⟩ :=
    stamps_chain f fuel o.options.every.ns calls o w o.lastCalled hfn hmu hretry rfl hclk
  refine ⟨ts, o', w', hrun, hlen, ?_⟩
  refine List.Chain.imp ?_ hchain
  intro a b hab
  have h1 : a.2 + o.options.every.ns < b.2 := lt_of_lt_of_le hab.1 hab.2
  refine ⟨hab.1, h1, fun h0 => ?_⟩
  exact lt_of_le_of_lt (le_add_of_nonneg_right h0) h1

/-- C15, witness: the ten calls of `TestOnce_Pull_Every`, 101ms apart, invoke the counter at
0, 202, 404, 606 and 808 ms. -/
theorem C15_invocations_more_than_every_apart_witness :
    (testEvery.options.retryOnError = false ∧
      ∀ c ∈ spaced unixEpoch (101 * Millisecond) 10, c.2 0 ≤ c.2 1) ∧
    (testEvery.stamps 1 (spaced unixEpoch (101 * Millisecond) 10) (0, [])).map
      (fun r => (r.1, r.2.2.2.length)) =
      some ([(unixEpoch, unixEpoch),
        (unixEpoch + 202 * Millisecond, unixEpoch + 202 * Millisecond),
        (unixEpoch + 404 * Millisecond, unixEpoch + 404 * Millisecond),
        (unixEpoch + 606 * Millisecond, unixEpoch + 606 * Millisecond),
        (unixEpoch + 808 * Millisecond, unixEpoch + 808 * Millisecond)], 5) ∧
    ∃ ts o' w', testEvery.stamps 1 (spaced unixEpoch (101 * Millisecond) 10) (0, []) =
        some (ts, o', w') ∧
      w'.2.length = 0 + ts.length ∧
      List.Chain
        (fun a b : Time × Time =>
          a.2 + 200 * Millisecond < b.1 ∧ a.2 + 200 * Millisecond < b.2 ∧
            (0 ≤ 200 * Millisecond → a.2 < b.2))
        (0, 0) ts :=
  ⟨⟨rfl, by decide⟩, by decide,
    C15_invocations_more_than_every_apart counterFn testEvery 0
      (spaced unixEpoch (101 * Millisecond) 10) (0, []) rfl rfl rfl (by decide)⟩

/-! ## Goroutines: one alone, and two at once -/

theorem all_checks_congr (o o' : Once C W T E) (clk clk' : Clock)
    (hl : o.lastCalled = o'.lastCalled) (ho : o.options = o'.options) (he : o.err = o'.err)
    (hclk : clk 0 = clk' 0) :
    (all o.checks false clk).1 = (all o'.checks false clk').1 := by
  rw [Bool.eq_iff_iff, all_checks_fst, all_checks_fst, hl, ho, he, hclk]

/-- A goroutine that runs alone does what `Once.Pull` does: in at most 11 steps it returns the
pair that `Pull` returns and leaves the same `Once` and world, when the clock of `Pull` reads
what the goroutine reads at its check (step 1) and at `o.lastCalled = time.Now()` (step 7). -/
theorem run_alone_is_Pull (o : Once C W T E) (ctx : C) (w : W) (t : Nat → Time)
    (hmu : o.mu = RWMutex.free) :
    ∃ n r, n ≤ 11 ∧ o.Pull 1 ctx (fun k => if k = 0 then t 1 else t 7) w = some r ∧
      (Config.mk o w [(ctx, Pc.rlock)]).run ((List.range n).map (fun k => (0, t k))) =
        some ⟨r.once, r.world, [(ctx, Pc.returned r.value r.err)]⟩ := by
  obtain ⟨op, fn, mu, lc, res, err⟩ := o
  simp only at hmu
  subst hmu
  have hcc := all_checks_congr (⟨op, fn, ⟨false, 1⟩, lc, res, err⟩ : Once C W T E)
    (⟨op, fn, RWMutex.free, lc, res, err⟩ : Once C W T E) (fun _ => t 1)
    (fun k => if k = 0 then t 1 else t 7) rfl rfl rfl rfl
  cases hc : (all (Once.checks (⟨op, fn, RWMutex.free, lc, res, err⟩ : Once C W T E)) false
      (fun k => if k = 0 then t 1 else t 7)).1
  · refine ⟨11, _, le_refl _, Pull_recompute 0 _ ctx _ w rfl hc, ?_⟩
    rw [hc] at hcc
    simp [List.range, List.range.loop, Config.run, Config.step, Pc.step, RWMutex.RLock,
      RWMutex.free, RWMutex.RUnlock, RWMutex.TryLock, RWMutex.Unlock, hcc, Once.stored]
  · refine ⟨5, _, by decide, Pull_serve 0 _ ctx _ w rfl hc, ?_⟩
    rw [hc] at hcc
    simp [List.range, List.range.loop, Config.run, Config.step, Pc.step, RWMutex.RLock,
      RWMutex.free, RWMutex.RUnlock, hcc]

/-- C1, the code at a failing schedule: two goroutines call `Pull` on the `Once` of
`TestOnce_Pull_Racing`.  The first finds the fresh cache stale and releases the read lock
(3 steps); the second then runs its whole call (11 steps), invoking the counter; the first
goes on with `TryLock`, which succeeds because nobody holds the lock any more, and invokes
the counter again without another look at the cache.  The callers return 2 and 1 and the
counter ends at 2, with two invocations logged. -/
theorem C1_late_TryLock_invokes_again :
    ((Config.mk testRacing (0, []) (callers Int String 2)).run
        (steps 0 unixEpoch 3 ++ steps 1 unixEpoch 11 ++ steps 0 unixEpoch 8)).map
      (fun c => (c.goroutines.map (fun g => g.2), c.world)) =
      some ([Pc.returned 2 none, Pc.returned 1 none],
        (2, [⟨(), 1, none⟩, ⟨(), 2, none⟩])) := by
  decide

/-- C12, the code at a failing schedule: three goroutines call `Pull` on `testFlaky` (refresh
interval 200ms).  The first runs alone at the Unix epoch and caches `(1, nil)`.  The second
passes its check 200ms later and releases the read lock (3 steps).  The third, 1ms later, finds
the cache stale, takes the write lock, invokes `fn`, which returns 2 with an error, and stores
`o.result` (6 steps).  Only now does the second read `o.result` and `o.err` for its `return`,
outside any lock (2 steps): it returns `(2, nil)`, the value of the second invocation with the
error of the first, a pair that no invocation returned. -/
theorem C12_fast_path_returns_a_torn_pair :
    ((Config.mk testFlaky (0, []) (callers Int String 3)).run
        (steps 0 unixEpoch 11 ++ steps 1 (unixEpoch + 200 * Millisecond) 3 ++
          steps 2 (unixEpoch + 201 * Millisecond) 6 ++
          steps 1 (unixEpoch + 201 * Millisecond) 2 ++
          steps 2 (unixEpoch + 201 * Millisecond) 5)).map
      (fun c => (c.goroutines.map (fun g => g.2), c.world.2)) =
      some ([Pc.returned 1 none, Pc.returned 2 none, Pc.returned 2 (some "some error")],
        [⟨(), 1, none⟩, ⟨(), 2, some "some error"⟩]) := by
  decide

end Oncevery
